import Mathlib

/-!
Verification of the color-extraction-and-matching pipeline of
`find-track-by-color` (src/find.rs), shallowly embedded in Lean.

Conventions of the embedding:
* `u8` channel values become `Fin 256`; `f64` distances become `ℝ`
  (the source takes a square root); `f32` coverage fractions and
  k-means scores become `ℚ`; `usize` becomes `ℕ`.
* Calls into external crates are abstracted as function parameters:
  `image::open` and the per-file extraction become
  `extract : Path → Option _`, `kmeans_colors::get_kmeans` becomes
  `getKmeans : ℕ → Kmeans` (seed to result, the other arguments held
  fixed), `Lab::sort_indexed_colors` becomes `sortIndexedColors`,
  the palette Lab→Srgb→u8 conversion becomes `labToRgb`,
  `TrackId::from_str` becomes `validId : String → Bool`, and the
  Spotify client `spotify.track` becomes `track : String → Option String`.
* Rust's `sort_by` is a stable sort by a total comparator; it is
  modelled by the stable insertion sort `stableSortBy` below.
* File paths are modelled by their file names (`Finder::find` only ever
  uses `entry.path()` through its file name).
-/

namespace FindTrack

/-- File path, modelled as the file's name. -/
abbrev Path := String

/-- An 8-bit-per-channel display color, `image::Rgb<u8>`. -/
structure Rgb where
  r : Fin 256
  g : Fin 256
  b : Fin 256
deriving DecidableEq

/-- Per-channel normalized difference, `fn diff` of src/find.rs lines 115-121:
each channel is divided by `u8::MAX = 255` and the two quotients subtracted. -/
def diff (a b : Fin 256) : ℚ := (a : ℚ) / 255 - (b : ℚ) / 255

/-- Sum of the three squared per-channel differences: the value under the
square root in `color_diff` (src/find.rs line 127). -/
def colorDiffSq (a b : Rgb) : ℚ :=
  diff a.r b.r ^ 2 + diff a.g b.g ^ 2 + diff a.b b.b ^ 2

/-- Perceptual distance `fn color_diff` of src/find.rs lines 123-129:
the Euclidean norm of the three per-channel differences divided by `√3`,
then `abs` as in the source. -/
noncomputable def color_diff (a b : Rgb) : ℝ :=
  |Real.sqrt ((colorDiffSq a b : ℚ) : ℝ) / Real.sqrt 3|

/-- Per-image match step, inlined in `Finder::find` at src/find.rs lines
59-67: drop representative colors with coverage below the hardcoded `0.1`,
map the rest to (distance to target, coverage), and take the FIRST entry
(`Iterator::find`) whose distance is strictly below the threshold. -/
noncomputable def bestMatch (threshold : ℝ) (target : Rgb)
    (colors : List (Rgb × ℚ)) : Option (ℝ × ℚ) :=
  let diffs := (colors.filter fun cp => decide ((1 : ℚ)/10 ≤ cp.2)).map
    fun cp => (color_diff target cp.1, cp.2)
  diffs.find? fun dp => decide (dp.1 < threshold)

/-- Identifier derivation `fn track_id_by_image_path` (src/find.rs lines
101-106): strip the fixed `.jpg` suffix from the file name; the validity
check done by the external `TrackId::from_str` is abstracted as `validId`.
Suffix stripping is modelled on the char list of the name. -/
def track_id_by_image_path (validId : String → Bool) (name : Path) :
    Option String :=
  let cs := name.toList
  if (cs.reverse.take 4).reverse = [Char.ofNat 46, Char.ofNat 106, Char.ofNat 112, Char.ofNat 103] then
    let uri := String.mk (cs.reverse.drop 4).reverse
    if validId uri then some uri else none
  else none

/-- The scan stage of `Finder::find` (src/find.rs lines 34-54): one
extraction task per directory entry, at most `limit` of them dispatched
(`.take(self.limit)` on the task iterator), results joined in order and
failed extractions dropped (`.flatten().flatten()`). -/
def scanImages (limit : ℕ) (entries : List Path)
    (extract : Path → Option (List (Rgb × ℚ))) :
    List (Path × List (Rgb × ℚ)) :=
  ((entries.map fun e => (extract e).map fun colors => (e, colors)).take
    limit).filterMap id

/-- Stable insertion of `x` into `l`: `x` lands before the first element
`y` with `le x y`, hence before any element that compares equal to it. -/
def insertBy (le : α → α → Bool) (x : α) : List α → List α
  | [] => [x]
  | y :: ys => if le x y then x :: y :: ys else y :: insertBy le x ys

/-- Model of Rust's stable `slice::sort_by`: stable insertion sort by the
comparator-induced `le` (where `le x y` means "the comparator does not
place `x` after `y`"). -/
def stableSortBy (le : α → α → Bool) : List α → List α
  | [] => []
  | x :: xs => insertBy le x (stableSortBy le xs)

/-- One surviving match as carried through the tail of `Finder::find`:
the tuple `(TrackId, PathBuf, f64 distance, f32 coverage)`. -/
structure Scored where
  id : String
  path : Path
  diff : ℝ
  per : ℚ

/-- The configuration fields of `struct Finder` (src/find.rs lines 19-27)
that the pipeline logic reads; the directory becomes the `entries` list,
`FindColors` and the Spotify client are abstracted at the call sites. -/
structure Finder where
  threshold : ℝ
  target_color : Rgb
  limit : ℕ

/-- The whole of `Finder::find` (src/find.rs lines 30-84): scan at most
`limit` entries, run the per-image match step, derive a track id from the
file name (dropping failures), resolve each id (`spotify.track`, dropping
failures), and sort by the comparator `b.partial_cmp(a)` on the distance
component, i.e. by DESCENDING distance, stably. -/
noncomputable def Finder.find (f : Finder) (entries : List Path)
    (extract : Path → Option (List (Rgb × ℚ)))
    (validId : String → Bool) (track : String → Option String) :
    List (String × Scored) :=
  let results := scanImages f.limit entries extract
  let matched := results.filterMap fun pc =>
    (bestMatch f.threshold f.target_color pc.2).map fun dp => (pc.1, dp)
  let withIds := matched.filterMap fun pd =>
    (track_id_by_image_path validId pd.1).map fun id =>
      Scored.mk id pd.1 pd.2.1 pd.2.2
  let tracks := withIds.filterMap fun s => (track s.id).map fun tr => (tr, s)
  stableSortBy (fun x y => decide (y.2.diff ≤ x.2.diff)) tracks

/-- The clustering configuration `struct FindColors` (src/find.rs lines
131-139). Note that `coverage` is passed to `get_kmeans` as its
convergence argument; it is NOT a minimum-coverage filter. -/
structure FindColors where
  runs : ℕ
  k : ℕ
  max_iter : ℕ
  coverage : ℚ
  verbose : Bool
  seed : ℕ

/-- A color in the perceptually uniform Lab space of the palette crate,
kept opaque (three components). -/
structure Lab where
  l : ℚ
  a : ℚ
  b : ℚ
deriving DecidableEq

/-- The result of one `kmeans_colors` run: a quality score (lower is
better), centroids and per-pixel assignment indices. -/
structure Kmeans where
  score : ℚ
  centroids : List Lab
  indices : List ℕ

/-- The value of `f32::MAX`, which is the `score` of `Kmeans::default()`. -/
def f32MAX : ℚ := (2 ^ 24 - 1) * 2 ^ 104

/-- Model of `Kmeans::new()`: default score `f32::MAX`, nothing else. -/
def Kmeans.new : Kmeans := ⟨f32MAX, [], []⟩

/-- The run-selection fold of `FindColors::get_colors` (src/find.rs lines
157-170), factored over the list of run results: keep the current best,
replacing it exactly when a run's score is strictly lower. -/
def selectRun (init : Kmeans) (l : List Kmeans) : Kmeans :=
  l.foldl (fun result run => if run.score < result.score then run else result)
    init

/-- The clustering attempts of the loop `for i in 0..self.runs` of
src/find.rs lines 158-170: attempt `i` is seeded with `seed + i`. -/
def kmeansAttempts (cfg : FindColors) (getKmeans : ℕ → Kmeans) : List Kmeans :=
  (List.range cfg.runs).map fun i => getKmeans (cfg.seed + i)

/-- Color extraction `FindColors::get_colors` (src/find.rs lines 146-182):
run `get_kmeans` once per `i < runs` with seed `seed + i`, keep the run
with the strictly lowest score starting from `Kmeans::new()`, convert the
winning run's indexed colors to display space, and sort them by the
comparator `b.partial_cmp(&a)` on the coverage, i.e. by DESCENDING
coverage, stably. `getKmeans seed` stands for the external call
`get_kmeans(self.k, self.max_iter, self.coverage, self.verbose, &lab, seed)`
with everything but the seed fixed. -/
def get_colors (cfg : FindColors) (getKmeans : ℕ → Kmeans)
    (sortIndexedColors : List Lab → List ℕ → List (Lab × ℚ))
    (labToRgb : Lab → Rgb) : List (Rgb × ℚ) :=
  let result := selectRun Kmeans.new (kmeansAttempts cfg getKmeans)
  let colors := (sortIndexedColors result.centroids result.indices).map
    fun cp => (labToRgb cp.1, cp.2)
  stableSortBy (fun x y => decide (y.2 ≤ x.2)) colors

/-! Concrete inputs used by witnesses and counterexamples. -/

/-- Pure red, `(255, 0, 0)`. -/
def red : Rgb := ⟨255, 0, 0⟩

/-- Pure blue, `(0, 0, 255)`. -/
def blue : Rgb := ⟨0, 0, 255⟩

/-- Pure black, `(0, 0, 0)`. -/
def black : Rgb := ⟨0, 0, 0⟩

/-- A finder with threshold 1, target pure red, limit 10. -/
def finder1 : Finder := ⟨1, red, 10⟩

/-- Two directory entries. -/
def entries1 : List Path := ["a.jpg", "b.jpg"]

/-- Extraction giving a pure-red image for `a.jpg` and a pure-black one
for `b.jpg`, each a single representative color of full coverage. -/
def extract1 : Path → Option (List (Rgb × ℚ)) := fun e =>
  if e = "a.jpg" then some [(red, 1)] else some [(black, 1)]

/-- A track-id validity oracle accepting every stem. -/
def validAll : String → Bool := fun _ => true

/-- A metadata oracle resolving every id to itself. -/
def trackAll : String → Option String := fun id => some id

/-- Colors of one image: a black color covering 3/5 and a red color
covering 2/5 of the image. -/
def cexColors : List (Rgb × ℚ) := [(black, 3/5), (red, 2/5)]

/-- A clustering configuration whose `coverage` field is 1/2. -/
def cfgHalf : FindColors := ⟨1, 2, 10, 1/2, false, 0⟩

/-- One directory entry for the C7 witness. -/
def entries7 : List Path := ["a.jpg"]

/-- Extraction giving every entry a single full-coverage pure-red color. -/
def extract7 : Path → Option (List (Rgb × ℚ)) := fun _ => some [(red, 1)]

/-- Six directory entries, the last one a corrupt file. -/
def entries8 : List Path := ["1.jpg", "2.jpg", "3.jpg", "4.jpg", "5.jpg", "bad"]

/-- Extraction failing exactly on the corrupt entry `bad`. -/
def extract8 : Path → Option (List (Rgb × ℚ)) := fun e =>
  if e = "bad" then none else some [(red, 1)]

/-- A clustering configuration with 3 runs and seed 5. -/
def cfg9 : FindColors := ⟨3, 2, 10, 1/100, false, 5⟩

/-- A kmeans oracle whose score equals the seed, so the run at seed 5
(attempt 0) is the strict minimum. -/
def gk9 : ℕ → Kmeans := fun s => ⟨(s : ℚ), [⟨s, 0, 0⟩], [0]⟩

/-- A concrete stand-in for `Lab::sort_indexed_colors`. -/
def sic9 : List Lab → List ℕ → List (Lab × ℚ) := fun cs _ =>
  cs.map fun c => (c, 2/5)

/-- A concrete stand-in for the Lab→Srgb→u8 conversion. -/
def ltr9 : Lab → Rgb := fun _ => red

/-! Helper lemmas about the stable sort. -/

theorem insertBy_perm (le : α → α → Bool) (x : α) (l : List α) :
    (insertBy le x l).Perm (x :: l) := by
  induction l with
  | nil => exact List.Perm.refl _
  | cons y ys ih =>
    by_cases h : le x y = true
    · rw [insertBy, if_pos h]
    · rw [insertBy, if_neg h]
      exact (ih.cons y).trans (List.Perm.swap x y ys)

theorem insertBy_mem {le : α → α → Bool} {x z : α} {l : List α} :
    z ∈ insertBy le x l ↔ z = x ∨ z ∈ l := by
  rw [(insertBy_perm le x l).mem_iff, List.mem_cons]

theorem insertBy_pairwise {le : α → α → Bool}
    (htot : ∀ a b, le a b = false → le b a = true)
    (htrans : ∀ a b c, le a b = true → le b c = true → le a c = true)
    {x : α} {l : List α} (hl : l.Pairwise fun a b => le a b = true) :
    (insertBy le x l).Pairwise fun a b => le a b = true := by
  induction l with
  | nil => simp [insertBy]
  | cons y ys ih =>
    rcases List.pairwise_cons.mp hl with ⟨hy, hys⟩
    by_cases h : le x y = true
    · rw [insertBy, if_pos h]
      refine List.pairwise_cons.mpr ⟨?_, hl⟩
      intro z hz
      rcases List.mem_cons.mp hz with rfl | hz
      · exact h
      · exact htrans x y z h (hy z hz)
    · rw [insertBy, if_neg h]
      refine List.pairwise_cons.mpr ⟨?_, ih hys⟩
      intro z hz
      rcases insertBy_mem.mp hz with rfl | hz
      · exact htot _ _ (Bool.eq_false_iff.mpr h)
      · exact hy z hz

theorem stableSortBy_pairwise {le : α → α → Bool}
    (htot : ∀ a b, le a b = false → le b a = true)
    (htrans : ∀ a b c, le a b = true → le b c = true → le a c = true) :
    ∀ l : List α, (stableSortBy le l).Pairwise fun a b => le a b = true
  | [] => List.Pairwise.nil
  | x :: xs => by
    rw [stableSortBy]
    exact insertBy_pairwise htot htrans (stableSortBy_pairwise htot htrans xs)

theorem stableSortBy_perm (le : α → α → Bool) :
    ∀ l : List α, (stableSortBy le l).Perm l
  | [] => List.Perm.refl _
  | x :: xs => by
    rw [stableSortBy]
    exact (insertBy_perm le x _).trans ((stableSortBy_perm le xs).cons x)

theorem insertBy_filter_pos {le : α → α → Bool} {p : α → Bool} {x : α}
    (hx : p x = true) (hle : ∀ y, p y = true → le x y = true) :
    ∀ l : List α, (insertBy le x l).filter p = x :: l.filter p := by
  intro l
  induction l with
  | nil => simp [insertBy, hx]
  | cons y ys ih =>
    by_cases h : le x y = true
    · rw [insertBy, if_pos h, List.filter_cons, if_pos hx]
    · have hpy : p y = false := by
        cases hpy : p y
        · rfl
        · exact absurd (hle y hpy) h
      rw [insertBy, if_neg h, List.filter_cons, if_neg (by simp [hpy]), ih,
        List.filter_cons, if_neg (by simp [hpy])]

theorem insertBy_filter_neg {le : α → α → Bool} {p : α → Bool} {x : α}
    (hx : p x = false) :
    ∀ l : List α, (insertBy le x l).filter p = l.filter p := by
  intro l
  induction l with
  | nil => simp [insertBy, hx]
  | cons y ys ih =>
    by_cases h : le x y = true
    · rw [insertBy, if_pos h, List.filter_cons, if_neg (by simp [hx])]
    · rw [insertBy, if_neg h, List.filter_cons, ih, List.filter_cons]

theorem stableSortBy_filter {le : α → α → Bool} {p : α → Bool}
    (hp : ∀ a b, p a = true → p b = true → le a b = true) :
    ∀ l : List α, (stableSortBy le l).filter p = l.filter p
  | [] => rfl
  | x :: xs => by
    rw [stableSortBy]
    cases hx : p x
    · rw [insertBy_filter_neg hx, stableSortBy_filter hp xs, List.filter_cons,
        if_neg (by simp [hx])]
    · rw [insertBy_filter_pos hx (fun y hy => hp x y hx hy),
        stableSortBy_filter hp xs, List.filter_cons, if_pos hx]

/-! Helper lemmas about the run-selection fold. -/

theorem selectRun_cons (init r : Kmeans) (l : List Kmeans) :
    selectRun init (r :: l) =
      selectRun (if r.score < init.score then r else init) l := rfl

theorem selectRun_min (init : Kmeans) (l : List Kmeans) :
    ∀ r ∈ init :: l, (selectRun init l).score ≤ r.score := by
  induction l generalizing init with
  | nil =>
    intro r hr
    rw [List.mem_singleton] at hr
    subst hr
    exact le_refl _
  | cons x rest ih =>
    intro r hr
    rw [selectRun_cons]
    by_cases h : x.score < init.score
    · rw [if_pos h]
      rcases List.mem_cons.mp hr with rfl | hr
      · exact le_of_lt (lt_of_le_of_lt (ih x x (List.mem_cons_self x rest)) h)
      · exact ih x r hr
    · rw [if_neg h]
      rcases List.mem_cons.mp hr with rfl | hr
      · exact ih r r (List.mem_cons_self r rest)
      · rcases List.mem_cons.mp hr with rfl | hr
        · exact le_trans (ih init init (List.mem_cons_self init rest))
            (not_lt.mp h)
        · exact ih init r (List.mem_cons.mpr (Or.inr hr))

theorem selectRun_split (init : Kmeans) (l : List Kmeans) :
    ∃ l₁ l₂, init :: l = l₁ ++ selectRun init l :: l₂ ∧
      ∀ r ∈ l₁, (selectRun init l).score < r.score := by
  induction l generalizing init with
  | nil => exact ⟨[], [], rfl, by simp⟩
  | cons x rest ih =>
    rw [selectRun_cons]
    by_cases h : x.score < init.score
    · rw [if_pos h]
      obtain ⟨l₁, l₂, heq, hlt⟩ := ih x
      refine ⟨init :: l₁, l₂, ?_, ?_⟩
      · rw [List.cons_append]
        exact congrArg (init :: ·) heq
      · intro r hr
        rcases List.mem_cons.mp hr with rfl | hr
        · exact lt_of_le_of_lt
            (selectRun_min x rest x (List.mem_cons_self x rest)) h
        · exact hlt r hr
    · rw [if_neg h]
      obtain ⟨l₁, l₂, heq, hlt⟩ := ih init
      cases l₁ with
      | nil =>
        rw [List.nil_append] at heq
        refine ⟨[], x :: rest, ?_, by simp⟩
        rw [List.nil_append]
        rw [List.cons_eq_cons] at heq
        rw [← heq.1]
      | cons a l₁ =>
        rw [List.cons_append, List.cons_eq_cons] at heq
        have hsel_init : (selectRun init rest).score < init.score :=
          heq.1.symm ▸ hlt a (List.mem_cons_self a l₁)
        refine ⟨init :: x :: l₁, l₂, ?_, ?_⟩
        · rw [List.cons_append, List.cons_append, ← heq.2]
        · intro r hr
          rcases List.mem_cons.mp hr with rfl | hr
          · exact hsel_init
          · rcases List.mem_cons.mp hr with rfl | hr
            · exact lt_of_lt_of_le hsel_init (not_lt.mp h)
            · exact hlt r (List.mem_cons.mpr (Or.inr hr))

/-! Helper lemmas about the distance metric. -/

theorem colorDiffSq_nonneg (a b : Rgb) : 0 ≤ colorDiffSq a b := by
  unfold colorDiffSq
  positivity

theorem color_diff_eq (a b : Rgb) :
    color_diff a b = Real.sqrt ((colorDiffSq a b : ℚ) : ℝ) / Real.sqrt 3 := by
  unfold color_diff
  exact abs_of_nonneg (div_nonneg (Real.sqrt_nonneg _) (Real.sqrt_nonneg _))

theorem color_diff_nonneg (a b : Rgb) : 0 ≤ color_diff a b := abs_nonneg _

theorem color_diff_self (a : Rgb) : color_diff a a = 0 := by
  rw [color_diff_eq]
  have h : colorDiffSq a a = 0 := by
    simp [colorDiffSq, diff]
  rw [h]
  simp

theorem colorDiffSq_comm (a b : Rgb) : colorDiffSq a b = colorDiffSq b a := by
  simp only [colorDiffSq, diff]
  ring

theorem diff_sq_le_one (x y : Fin 256) : diff x y ^ 2 ≤ 1 := by
  have hx : (x : ℚ) ≤ 255 := by
    have := Nat.le_of_lt_succ x.isLt
    exact_mod_cast this
  have hy : (y : ℚ) ≤ 255 := by
    have := Nat.le_of_lt_succ y.isLt
    exact_mod_cast this
  have hx0 : (0 : ℚ) ≤ (x : ℚ) := by exact_mod_cast Nat.zero_le x.val
  have hy0 : (0 : ℚ) ≤ (y : ℚ) := by exact_mod_cast Nat.zero_le y.val
  rw [sq_le_one_iff_abs_le_one, abs_le]
  unfold diff
  constructor
  · rw [neg_le, neg_sub]
    rw [sub_le_iff_le_add]
    calc (y : ℚ) / 255 ≤ 1 := by rw [div_le_one] <;> linarith
      _ ≤ 1 + (x : ℚ) / 255 := by
        have : (0 : ℚ) ≤ (x : ℚ) / 255 := by positivity
        linarith
  · rw [sub_le_iff_le_add]
    calc (x : ℚ) / 255 ≤ 1 := by rw [div_le_one] <;> linarith
      _ ≤ 1 + (y : ℚ) / 255 := by
        have : (0 : ℚ) ≤ (y : ℚ) / 255 := by positivity
        linarith

theorem colorDiffSq_le_three (a b : Rgb) : colorDiffSq a b ≤ 3 := by
  have h1 := diff_sq_le_one a.r b.r
  have h2 := diff_sq_le_one a.g b.g
  have h3 := diff_sq_le_one a.b b.b
  unfold colorDiffSq
  linarith

theorem color_diff_le_one (a b : Rgb) : color_diff a b ≤ 1 := by
  rw [color_diff_eq, div_le_one (Real.sqrt_pos.mpr (by norm_num))]
  apply Real.sqrt_le_sqrt
  exact_mod_cast colorDiffSq_le_three a b

theorem colorDiffSq_red_blue : colorDiffSq red blue = 2 := by
  unfold colorDiffSq red blue diff
  norm_num [show ((255 : Fin 256) : ℚ) = ((255 : ℕ) : ℚ) from rfl,
    show ((0 : Fin 256) : ℚ) = ((0 : ℕ) : ℚ) from rfl]

theorem colorDiffSq_red_black : colorDiffSq red black = 1 := by
  unfold colorDiffSq red black diff
  norm_num [show ((255 : Fin 256) : ℚ) = ((255 : ℕ) : ℚ) from rfl,
    show ((0 : Fin 256) : ℚ) = ((0 : ℕ) : ℚ) from rfl]

theorem color_diff_red_blue :
    color_diff red blue = Real.sqrt 2 / Real.sqrt 3 := by
  rw [color_diff_eq, colorDiffSq_red_blue]
  norm_num

theorem color_diff_red_black : color_diff red black = (Real.sqrt 3)⁻¹ := by
  rw [color_diff_eq, colorDiffSq_red_black]
  norm_num [Real.sqrt_one]

theorem sqrt2_div_sqrt3_eq : Real.sqrt 2 / Real.sqrt 3 = Real.sqrt (2/3) :=
  (Real.sqrt_div (by norm_num) 3).symm

theorem sqrt2_div_sqrt3_lt_one : Real.sqrt 2 / Real.sqrt 3 < 1 := by
  rw [div_lt_one (Real.sqrt_pos.mpr (by norm_num))]
  exact Real.sqrt_lt_sqrt (by norm_num) (by norm_num)

theorem sqrt2_div_sqrt3_lt_nine_tenths :
    Real.sqrt 2 / Real.sqrt 3 < 9/10 := by
  rw [sqrt2_div_sqrt3_eq, Real.sqrt_lt' (by norm_num)]
  norm_num

theorem inv_sqrt3_pos : 0 < (Real.sqrt 3)⁻¹ := by positivity

theorem inv_sqrt3_lt_one : (Real.sqrt 3)⁻¹ < 1 := by
  rw [inv_lt_one_iff₀]
  right
  calc (1:ℝ) = Real.sqrt 1 := Real.sqrt_one.symm
    _ < Real.sqrt 3 := Real.sqrt_lt_sqrt (by norm_num) (by norm_num)

/-! Helper lemmas about list search and the match step. -/

theorem find?_split {p : α → Bool} :
    ∀ {l : List α} {a : α}, l.find? p = some a →
      p a = true ∧ ∃ l₁ l₂, l = l₁ ++ a :: l₂ ∧ ∀ x ∈ l₁, p x = false := by
  intro l
  induction l with
  | nil => intro a h; simp [List.find?] at h
  | cons x xs ih =>
    intro a h
    cases hp : p x
    · rw [List.find?_cons_of_neg xs (by simp [hp])] at h
      obtain ⟨hpa, l₁, l₂, heq, hneg⟩ := ih h
      refine ⟨hpa, x :: l₁, l₂, by rw [List.cons_append, heq], ?_⟩
      intro z hz
      rcases List.mem_cons.mp hz with rfl | hz
      · exact hp
      · exact hneg z hz
    · rw [List.find?_cons_of_pos xs hp] at h
      obtain rfl := Option.some.inj h
      exact ⟨hp, [], xs, rfl, by simp⟩

theorem length_filterMap_isSome (f : α → Option β) :
    ∀ l : List α, (l.filterMap f).length = l.countP fun a => (f a).isSome := by
  intro l
  induction l with
  | nil => rfl
  | cons x xs ih =>
    rw [List.countP_cons]
    cases hx : f x
    · rw [List.filterMap_cons_none hx, ih, if_neg (by simp [hx]),
        Nat.add_zero]
    · rw [List.filterMap_cons_some hx, List.length_cons, ih,
        if_pos (by simp [hx])]

theorem bestMatch_singleton (t : ℝ) (target c : Rgb) (q : ℚ)
    (hq : (1:ℚ)/10 ≤ q) :
    bestMatch t target [(c, q)] =
      if color_diff target c < t then some (color_diff target c, q)
      else none := by
  unfold bestMatch
  dsimp only
  rw [List.filter_cons, if_pos (by exact decide_eq_true hq), List.filter_nil,
    List.map_cons, List.map_nil]
  dsimp only
  by_cases h : color_diff target c < t
  · rw [if_pos h, List.find?_cons_of_pos _ (by exact decide_eq_true h)]
  · rw [if_neg h, List.find?_cons_of_neg _ (by simpa using h)]
    rfl

/-! The claims. -/

/-- C5: the distance metric vanishes on the diagonal, is symmetric in its
two arguments, and always lies in the interval [0, 1]. -/
theorem color_diff_metric (a b : Rgb) :
    color_diff a a = 0 ∧ color_diff a b = color_diff b a ∧
      0 ≤ color_diff a b ∧ color_diff a b ≤ 1 := by
  refine ⟨color_diff_self a, ?_, color_diff_nonneg a b, color_diff_le_one a b⟩
  rw [color_diff_eq, color_diff_eq, colorDiffSq_comm]

/-- C6: the scanner dispatches at most `limit` extraction tasks and returns
at most `min limit entries.length` candidates, for every directory content,
limit and extraction behavior. -/
theorem scanImages_length_le (limit : ℕ) (entries : List Path)
    (extract : Path → Option (List (Rgb × ℚ))) :
    (scanImages limit entries extract).length ≤ min limit entries.length := by
  unfold scanImages
  calc (((entries.map fun e => (extract e).map fun colors => (e, colors)).take
        limit).filterMap id).length
      ≤ ((entries.map fun e => (extract e).map fun colors => (e, colors)).take
        limit).length := List.length_filterMap_le _ _
    _ = min limit (entries.map fun e =>
        (extract e).map fun colors => (e, colors)).length :=
      List.length_take _ _
    _ = min limit entries.length := by rw [List.length_map]

/-- C3 counterexample: the distance between pure red and pure blue is NOT
the maximal metric value 1, and at the threshold 9/10 < 1 an all-blue image
is NOT excluded for a pure-red target: the claimed distance value and the
claimed exclusion both fail. -/
theorem red_blue_not_maximal :
    color_diff red blue ≠ 1 ∧
      (bestMatch (9/10) red [(blue, 1)]).isSome = true := by
  constructor
  · rw [color_diff_red_blue]
    exact ne_of_lt sqrt2_div_sqrt3_lt_one
  · rw [bestMatch_singleton (9/10) red blue 1 (by norm_num), if_pos]
    · rfl
    · rw [color_diff_red_blue]
      exact sqrt2_div_sqrt3_lt_nine_tenths

/-- C3 amended: the red/blue distance is √2/√3 (≈ 0.8165), not 1; an
all-blue image with full coverage is excluded for a pure-red target exactly
for thresholds of at most √2/√3 (and in particular at thresholds between
√2/√3 and 1 it is kept). -/
theorem red_blue_distance :
    color_diff red blue = Real.sqrt 2 / Real.sqrt 3 ∧
      ∀ t : ℝ, t ≤ Real.sqrt 2 / Real.sqrt 3 →
        bestMatch t red [(blue, 1)] = none := by
  refine ⟨color_diff_red_blue, fun t ht => ?_⟩
  rw [bestMatch_singleton t red blue 1 (by norm_num), if_neg]
  rw [color_diff_red_blue]
  exact not_lt.mpr (ht.trans_eq rfl)

/-- C4 counterexample: the minimum-coverage fraction is not a configuration
parameter: the `coverage` field of `FindColors` (here configured to 1/2) is
the k-means convergence argument, and a representative color whose coverage
1/5 lies below that configured value is still NOT discarded — it reaches
the distance computation and is kept, because the match filter hardcodes
the constant 1/10. -/
theorem coverage_not_configured :
    cfgHalf.coverage = 1/2 ∧ (1/5 : ℚ) < cfgHalf.coverage ∧
      bestMatch 1 red [(red, 1/5)] = some (0, 1/5) := by
  refine ⟨rfl, by norm_num [cfgHalf], ?_⟩
  rw [bestMatch_singleton 1 red red (1/5) (by norm_num), color_diff_self,
    if_pos (by norm_num)]

/-- C4 amended: the minimum-coverage fraction is the constant 0.1 hardcoded
in `Finder::find`; representative colors below that constant are discarded
before any distance is computed, so discarding them in advance does not
change the match result. -/
theorem bestMatch_discards_low_coverage (t : ℝ) (target : Rgb)
    (colors : List (Rgb × ℚ)) :
    bestMatch t target (colors.filter fun cp => decide ((1:ℚ)/10 ≤ cp.2)) =
      bestMatch t target colors := by
  unfold bestMatch
  rw [List.filter_filter]
  simp

/-- C2 amended: per image the pipeline keeps the FIRST entry, in the stored
coverage-descending order, whose distance is strictly below the threshold —
not necessarily the lowest-distance one — and keeps nothing exactly when no
entry surviving the coverage filter has distance strictly below the
threshold. -/
theorem bestMatch_keeps_first_qualifying (t : ℝ) (target : Rgb)
    (colors : List (Rgb × ℚ)) :
    (bestMatch t target colors = none ↔
      ∀ cp ∈ colors, (1:ℚ)/10 ≤ cp.2 → ¬ color_diff target cp.1 < t) ∧
    ∀ d q, bestMatch t target colors = some (d, q) →
      d < t ∧
      (∃ cp ∈ colors,
        (1:ℚ)/10 ≤ cp.2 ∧ d = color_diff target cp.1 ∧ q = cp.2) ∧
      ∃ l₁ l₂,
        (colors.filter fun cq => decide ((1:ℚ)/10 ≤ cq.2)).map
            (fun cq => (color_diff target cq.1, cq.2)) = l₁ ++ (d, q) :: l₂ ∧
        ∀ dp ∈ l₁, ¬ dp.1 < t := by
  constructor
  · unfold bestMatch
    dsimp only
    rw [List.find?_eq_none]
    constructor
    · intro h cp hcp hcov
      have hmem : (color_diff target cp.1, cp.2) ∈
          (colors.filter fun cq => decide ((1:ℚ)/10 ≤ cq.2)).map
            (fun cq => (color_diff target cq.1, cq.2)) :=
        List.mem_map_of_mem _ (List.mem_filter.mpr ⟨hcp, decide_eq_true hcov⟩)
      simpa using h _ hmem
    · intro h dp hdp
      obtain ⟨cp, hcp, rfl⟩ := List.mem_map.mp hdp
      obtain ⟨hmem, hcov⟩ := List.mem_filter.mp hcp
      simpa using h cp hmem (of_decide_eq_true hcov)
  · intro d q h
    unfold bestMatch at h
    dsimp only at h
    obtain ⟨hpd, l₁, l₂, heq, hneg⟩ := find?_split h
    refine ⟨by simpa using hpd, ?_, l₁, l₂, heq, ?_⟩
    · have hmem : (d, q) ∈
          (colors.filter fun cq => decide ((1:ℚ)/10 ≤ cq.2)).map
            (fun cq => (color_diff target cq.1, cq.2)) := by
        rw [heq]
        exact List.mem_append_right _ (List.mem_cons_self _ _)
      obtain ⟨cp, hcp, hcpeq⟩ := List.mem_map.mp hmem
      obtain ⟨hm, hcov⟩ := List.mem_filter.mp hcp
      obtain ⟨h1, h2⟩ := Prod.mk.inj hcpeq
      exact ⟨cp, hm, of_decide_eq_true hcov, h1.symm, h2.symm⟩
    · intro dp hdp
      simpa using hneg dp hdp

/-- C2 counterexample: in `cexColors` the red entry `(red, 2/5)` survives
the coverage filter and has distance 0, which is strictly below both the
threshold 1 and the distance (√3)⁻¹ of the black entry; yet the pipeline
keeps the black entry `(black, 3/5)`, so it does not keep the single
lowest-distance entry. -/
theorem bestMatch_not_lowest_distance :
    bestMatch 1 red cexColors = some ((Real.sqrt 3)⁻¹, 3/5) ∧
      color_diff red red = 0 ∧ (0:ℝ) < (Real.sqrt 3)⁻¹ ∧
      (red, (2:ℚ)/5) ∈ cexColors ∧ (1:ℚ)/10 ≤ 2/5 ∧ ((0:ℝ) < 1) := by
  refine ⟨?_, color_diff_self red, inv_sqrt3_pos, ?_, by norm_num,
    by norm_num⟩
  · unfold bestMatch cexColors
    dsimp only
    rw [List.filter_cons,
      if_pos (by exact decide_eq_true (by norm_num : (1:ℚ)/10 ≤ 3/5)),
      List.filter_cons,
      if_pos (by exact decide_eq_true (by norm_num : (1:ℚ)/10 ≤ 2/5)),
      List.filter_nil, List.map_cons, List.map_cons, List.map_nil]
    dsimp only
    rw [List.find?_cons_of_pos _ (by
      exact decide_eq_true (by
        rw [color_diff_red_black]
        exact inv_sqrt3_lt_one))]
    rw [color_diff_red_black]
  · unfold cexColors
    exact List.mem_cons.mpr (Or.inr (List.mem_singleton.mpr rfl))

/-! Evaluation helpers for the stable sort on tiny lists. -/

theorem stableSortBy_single (le : α → α → Bool) (x : α) :
    stableSortBy le [x] = [x] := rfl

theorem stableSortBy_pair {le : α → α → Bool} {x y : α}
    (h : le x y = false) : stableSortBy le [x, y] = [y, x] := by
  rw [stableSortBy, stableSortBy, stableSortBy, insertBy, insertBy,
    if_neg (by simp [h]), insertBy]

theorem bestMatch_red_red : bestMatch 1 red [(red, 1)] = some (0, 1) := by
  have h := bestMatch_singleton 1 red red 1 (by norm_num)
  rw [color_diff_self] at h
  rw [h, if_pos (by norm_num)]

theorem bestMatch_red_black :
    bestMatch 1 red [(black, 1)] = some ((Real.sqrt 3)⁻¹, 1) := by
  have h := bestMatch_singleton 1 red black 1 (by norm_num)
  rw [color_diff_red_black] at h
  rw [h, if_pos inv_sqrt3_lt_one]

/-- Evaluation of the full pipeline on `entries1`/`extract1`: the black
image (distance (√3)⁻¹) is emitted BEFORE the red image (distance 0). -/
theorem find_eval1 :
    finder1.find entries1 extract1 validAll trackAll =
      [("b", ⟨"b", "b.jpg", (Real.sqrt 3)⁻¹, 1⟩),
       ("a", ⟨"a", "a.jpg", 0, 1⟩)] := by
  unfold Finder.find finder1
  dsimp only
  rw [show scanImages 10 entries1 extract1 =
      [("a.jpg", [(red, 1)]), ("b.jpg", [(black, 1)])] from rfl]
  simp only [List.filterMap_cons, List.filterMap_nil, bestMatch_red_red,
    bestMatch_red_black,
    show track_id_by_image_path validAll "a.jpg" = some "a" from rfl,
    show track_id_by_image_path validAll "b.jpg" = some "b" from rfl,
    trackAll, Option.map_some']
  rw [stableSortBy_pair (by exact decide_eq_false (not_le.mpr inv_sqrt3_pos))]

/-- C1 amended: the emitted sequence is sorted by DESCENDING distance (the
source comparator is `b.partial_cmp(a)` on the distances) with ties keeping
the pre-sort order; every adjacent pair has non-increasing distance. -/
theorem find_sorted_descending (f : Finder) (entries : List Path)
    (extract : Path → Option (List (Rgb × ℚ)))
    (validId : String → Bool) (track : String → Option String) :
    (f.find entries extract validId track).Pairwise
      fun x y => y.2.diff ≤ x.2.diff := by
  unfold Finder.find
  dsimp only
  refine List.Pairwise.imp (fun h => of_decide_eq_true h)
    (stableSortBy_pairwise ?_ ?_ _)
  · intro a b hab
    exact decide_eq_true (le_of_not_le (by simpa using hab))
  · intro a b c hab hbc
    exact decide_eq_true
      (le_trans (of_decide_eq_true hbc) (of_decide_eq_true hab))

/-- C1 counterexample: on `entries1`/`extract1` with a pure-red target at
threshold 1, the red image (distance 0) is emitted AFTER the black image
(distance (√3)⁻¹ > 0): the output is not sorted by ascending distance. -/
theorem find_not_ascending :
    ¬ (finder1.find entries1 extract1 validAll trackAll).Pairwise
        fun x y => x.2.diff ≤ y.2.diff := by
  rw [find_eval1]
  intro h
  have h1 := (List.pairwise_cons.mp h).1 ("a", ⟨"a", "a.jpg", 0, 1⟩)
    (List.mem_singleton.mpr rfl)
  exact absurd h1 (not_le.mpr inv_sqrt3_pos)

/-- C7: every emitted result has distance strictly below the configured
threshold and the coverage of its matching representative color is at least
the minimum fraction 1/10, whatever the candidates, oracles and
configuration. -/
theorem find_results_bounded (f : Finder) (entries : List Path)
    (extract : Path → Option (List (Rgb × ℚ)))
    (validId : String → Bool) (track : String → Option String) :
    ∀ ts ∈ f.find entries extract validId track,
      ts.2.diff < f.threshold ∧ (1:ℚ)/10 ≤ ts.2.per := by
  intro ts hts
  unfold Finder.find at hts
  dsimp only at hts
  rw [(stableSortBy_perm _ _).mem_iff] at hts
  obtain ⟨s, hs, hmap⟩ := List.mem_filterMap.mp hts
  obtain ⟨tr, htr, hts_eq⟩ := Option.map_eq_some'.mp hmap
  obtain ⟨pd, hpd, hmap2⟩ := List.mem_filterMap.mp hs
  obtain ⟨id0, hid, hs_eq⟩ := Option.map_eq_some'.mp hmap2
  obtain ⟨pc, hpc, hmap3⟩ := List.mem_filterMap.mp hpd
  obtain ⟨dp, hdp, hpd_eq⟩ := Option.map_eq_some'.mp hmap3
  have h1 : dp.1 < f.threshold := by
    unfold bestMatch at hdp
    dsimp only at hdp
    simpa using List.find?_some hdp
  have h2 : (1:ℚ)/10 ≤ dp.2 := by
    unfold bestMatch at hdp
    dsimp only at hdp
    have hm := List.mem_of_find?_eq_some hdp
    obtain ⟨cp, hcp, hcpeq⟩ := List.mem_map.mp hm
    obtain ⟨_, hcov⟩ := List.mem_filter.mp hcp
    rw [← hcpeq]
    simpa using of_decide_eq_true hcov
  subst hts_eq
  subst hs_eq
  subst hpd_eq
  exact ⟨h1, h2⟩

/-- Evaluation of the pipeline on the single candidate `entries7`. -/
theorem find_eval7 :
    finder1.find entries7 extract7 validAll trackAll =
      [("a", ⟨"a", "a.jpg", 0, 1⟩)] := by
  unfold Finder.find finder1
  dsimp only
  rw [show scanImages 10 entries7 extract7 = [("a.jpg", [(red, 1)])] from rfl]
  simp only [List.filterMap_cons, List.filterMap_nil, bestMatch_red_red,
    show track_id_by_image_path validAll "a.jpg" = some "a" from rfl,
    trackAll, Option.map_some']
  exact stableSortBy_single _ _

/-- C7 witness: the single result emitted on `entries7` has distance 0,
strictly below the threshold 1, and coverage 1, at least 1/10. -/
theorem find_results_bounded_witness : (0:ℝ) < 1 ∧ (1:ℚ)/10 ≤ 1 := by
  have h := find_results_bounded finder1 entries7 extract7 validAll trackAll
    ("a", ⟨"a", "a.jpg", 0, 1⟩)
    (by rw [find_eval7]; exact List.mem_singleton.mpr rfl)
  exact h

/-- C8: extraction failures are dropped silently and independently: with
the limit covering all entries, the scan returns exactly one candidate per
entry whose extraction succeeded, and every successful entry contributes
its candidate — a failing entry excludes only itself, and no error arises
(the scan is a total function into a plain list). -/
theorem scanImages_drops_only_failures (entries : List Path) (limit : ℕ)
    (extract : Path → Option (List (Rgb × ℚ)))
    (h : entries.length ≤ limit) :
    (scanImages limit entries extract).length =
        entries.countP (fun e => (extract e).isSome) ∧
      ∀ e ∈ entries, ∀ cs, extract e = some cs →
        (e, cs) ∈ scanImages limit entries extract := by
  unfold scanImages
  rw [List.take_of_length_le (by rwa [List.length_map]), List.filterMap_map]
  constructor
  · rw [length_filterMap_isSome]
    apply List.countP_congr
    intro e _
    simp [Function.comp, Option.isSome_map]
  · intro e he cs hcs
    refine List.mem_filterMap.mpr ⟨e, he, ?_⟩
    simp [Function.comp, hcs]

/-- C8 witness: five valid images and one corrupt file with limit 10 yield
exactly five candidates. -/
theorem scanImages_drops_only_failures_witness :
    (scanImages 10 entries8 extract8).length = 5 := by
  have h := scanImages_drops_only_failures entries8 10 extract8 (by decide)
  rw [h.1]
  rfl

/-- C9: whenever there is at least one run and every attempt scores below
`f32::MAX` (the score of `Kmeans::new()`), `get_colors` makes one attempt
per `i < runs`, attempt `i` seeded `seed + i`; it selects the first attempt
attaining the strictly lowest score (a strictly better score replaces the
current best, a tie keeps the earlier attempt), and returns that attempt's
representative colors sorted stably by descending coverage: the output is
the stable sort of the winner's colors, is non-increasing in coverage, is a
permutation of the winner's colors, and colors of equal coverage keep their
first-encountered order. -/
theorem get_colors_spec (cfg : FindColors) (getKmeans : ℕ → Kmeans)
    (sortIndexedColors : List Lab → List ℕ → List (Lab × ℚ))
    (labToRgb : Lab → Rgb)
    (h1 : 1 ≤ cfg.runs)
    (h2 : ∀ i < cfg.runs, (getKmeans (cfg.seed + i)).score < f32MAX) :
    ∃ sel l₁ l₂,
      kmeansAttempts cfg getKmeans = l₁ ++ sel :: l₂ ∧
      selectRun Kmeans.new (kmeansAttempts cfg getKmeans) = sel ∧
      (∀ r ∈ l₁, sel.score < r.score) ∧
      (∀ r ∈ kmeansAttempts cfg getKmeans, sel.score ≤ r.score) ∧
      get_colors cfg getKmeans sortIndexedColors labToRgb =
        stableSortBy (fun x y => decide (y.2 ≤ x.2))
          ((sortIndexedColors sel.centroids sel.indices).map
            fun cp => (labToRgb cp.1, cp.2)) ∧
      (get_colors cfg getKmeans sortIndexedColors labToRgb).Pairwise
        (fun x y => y.2 ≤ x.2) ∧
      (get_colors cfg getKmeans sortIndexedColors labToRgb).Perm
        ((sortIndexedColors sel.centroids sel.indices).map
          fun cp => (labToRgb cp.1, cp.2)) ∧
      ∀ q : ℚ,
        (get_colors cfg getKmeans sortIndexedColors labToRgb).filter
            (fun cp => decide (cp.2 = q)) =
          ((sortIndexedColors sel.centroids sel.indices).map
            fun cp => (labToRgb cp.1, cp.2)).filter
            fun cp => decide (cp.2 = q) := by
  have hfst : getKmeans (cfg.seed + 0) ∈ kmeansAttempts cfg getKmeans := by
    unfold kmeansAttempts
    exact List.mem_map_of_mem _ (List.mem_range.mpr h1)
  have hmin : ∀ r ∈ kmeansAttempts cfg getKmeans,
      (selectRun Kmeans.new (kmeansAttempts cfg getKmeans)).score ≤
        r.score := by
    intro r hr
    exact selectRun_min Kmeans.new _ r (List.mem_cons.mpr (Or.inr hr))
  have hselMAX :
      (selectRun Kmeans.new (kmeansAttempts cfg getKmeans)).score < f32MAX :=
    lt_of_le_of_lt (hmin _ hfst) (h2 0 h1)
  obtain ⟨l₁, l₂, heq, hlt⟩ :=
    selectRun_split Kmeans.new (kmeansAttempts cfg getKmeans)
  cases l₁ with
  | nil =>
    exfalso
    rw [List.nil_append, List.cons_eq_cons] at heq
    rw [← heq.1] at hselMAX
    exact lt_irrefl _ hselMAX
  | cons a l₁ =>
    rw [List.cons_append, List.cons_eq_cons] at heq
    have hgc : get_colors cfg getKmeans sortIndexedColors labToRgb =
        stableSortBy (fun x y => decide (y.2 ≤ x.2))
          ((sortIndexedColors
              (selectRun Kmeans.new (kmeansAttempts cfg getKmeans)).centroids
              (selectRun Kmeans.new (kmeansAttempts cfg getKmeans)).indices).map
            fun cp => (labToRgb cp.1, cp.2)) := rfl
    have htot : ∀ x y : Rgb × ℚ,
        (fun x y : Rgb × ℚ => decide (y.2 ≤ x.2)) x y = false →
        (fun x y : Rgb × ℚ => decide (y.2 ≤ x.2)) y x = true := by
      intro x y hxy
      exact decide_eq_true (le_of_not_le (by simpa using hxy))
    have htrans : ∀ x y z : Rgb × ℚ,
        (fun x y : Rgb × ℚ => decide (y.2 ≤ x.2)) x y = true →
        (fun x y : Rgb × ℚ => decide (y.2 ≤ x.2)) y z = true →
        (fun x y : Rgb × ℚ => decide (y.2 ≤ x.2)) x z = true := by
      intro x y z hxy hyz
      exact decide_eq_true
        (le_trans (of_decide_eq_true hyz) (of_decide_eq_true hxy))
    refine ⟨selectRun Kmeans.new (kmeansAttempts cfg getKmeans), l₁, l₂,
      heq.2, rfl, ?_, hmin, hgc, ?_, ?_, ?_⟩
    · intro r hr
      exact hlt r (List.mem_cons.mpr (Or.inr hr))
    · rw [hgc]
      exact List.Pairwise.imp (fun h => of_decide_eq_true h)
        (stableSortBy_pairwise htot htrans _)
    · rw [hgc]
      exact stableSortBy_perm _ _
    · intro q
      rw [hgc]
      refine stableSortBy_filter ?_ _
      intro x y hx hy
      exact decide_eq_true
        (le_of_eq ((of_decide_eq_true hy).trans (of_decide_eq_true hx).symm))

/-- C9 witness: at `cfg9` (3 runs, seed 5) with the score-equals-seed
oracle `gk9`, both hypotheses hold and the first attempt wins. -/
theorem get_colors_spec_witness :
    ∃ sel l₁ l₂,
      kmeansAttempts cfg9 gk9 = l₁ ++ sel :: l₂ ∧
      selectRun Kmeans.new (kmeansAttempts cfg9 gk9) = sel ∧
      (∀ r ∈ l₁, sel.score < r.score) ∧
      (∀ r ∈ kmeansAttempts cfg9 gk9, sel.score ≤ r.score) ∧
      get_colors cfg9 gk9 sic9 ltr9 =
        stableSortBy (fun x y => decide (y.2 ≤ x.2))
          ((sic9 sel.centroids sel.indices).map
            fun cp => (ltr9 cp.1, cp.2)) ∧
      (get_colors cfg9 gk9 sic9 ltr9).Pairwise (fun x y => y.2 ≤ x.2) ∧
      (get_colors cfg9 gk9 sic9 ltr9).Perm
        ((sic9 sel.centroids sel.indices).map fun cp => (ltr9 cp.1, cp.2)) ∧
      ∀ q : ℚ,
        (get_colors cfg9 gk9 sic9 ltr9).filter
            (fun cp => decide (cp.2 = q)) =
          ((sic9 sel.centroids sel.indices).map
            fun cp => (ltr9 cp.1, cp.2)).filter fun cp => decide (cp.2 = q) :=
  get_colors_spec cfg9 gk9 sic9 ltr9 (by decide) (by
    intro i hi
    have h3 : cfg9.runs = 3 := rfl
    rw [h3] at hi
    interval_cases i <;> norm_num [gk9, cfg9, f32MAX])

end FindTrack
